import Mathlib

/-!
Verification of the maze-solving and state-transition core of `ferris_lab`
(`src/main.rs`), shallowly embedded in Lean 4.

Embedding conventions:
* `Pos` models `UVec2` / `TilePos` (u32 coordinates) as `Nat × Nat`.
* `Keys` models the `keys: [bool; 3]` inventory array of the `Ferris` component.
* `TileMap` models the queryable tile layer: `m p = some t` when a tile entity
  with `texture_index = t` exists at `p` (`map_query.get_tile_entity` +
  `query.get` succeed), and `m p = none` when no tile entity is there.
* `get_neighboring_pos` / the solver's successor closure, the manual-step logic
  of `character_input`, `is_walkable_tile` and `play_solution` are translated
  directly from `src/main.rs`.
* The two functions the code takes from external crates (`bevy_ecs_tilemap`'s
  neighbour query and `pathfinding`'s `astar`) are not part of this repository's
  sources and are modelled from the spec, as documented at their definitions.
-/

/-- Grid position, modelling the `u32`-pair `UVec2`/`TilePos` of `main.rs`. -/
abbrev Pos := Nat × Nat

/-- Key inventory, modelling the `keys: [bool; 3]` field of `Ferris`. -/
structure Keys where
  k0 : Bool
  k1 : Bool
  k2 : Bool
deriving DecidableEq, Repr

/-- Read `keys[i]`; the Rust code only ever indexes with `i ∈ {0,1,2}`. -/
def Keys.get : Keys → Nat → Bool
  | ks, 0 => ks.k0
  | ks, 1 => ks.k1
  | ks, 2 => ks.k2
  | _, _ => false

/-- Write `keys[i] = v`; the Rust code only ever indexes with `i ∈ {0,1,2}`. -/
def Keys.set : Keys → Nat → Bool → Keys
  | ks, 0, v => { ks with k0 := v }
  | ks, 1, v => { ks with k1 := v }
  | ks, 2, v => { ks with k2 := v }
  | ks, _, _ => ks

/-- The character state, modelling the `Ferris` component `{ pos, keys }`:
the search-space node of the solver. -/
structure Ferris where
  pos : Pos
  keys : Keys
deriving DecidableEq, Repr

/-- The queryable tile layer (texture index per grid cell, `none` = no tile
entity at that cell). -/
abbrev TileMap := Pos → Option Nat

/-- `const START_TILE: u16 = 18` from `main.rs`. -/
def START_TILE : Nat := 18

/-- `const END_TILE: u16 = 19` from `main.rs`. -/
def END_TILE : Nat := 19

/-- The fixed `16 × 16` grid extent (spec §3: coordinates bounded to
`[0, 15] × [0, 15]`, matching the `clamp(0, 15)` in `character_input`). -/
def inBounds (p : Pos) : Bool := p.1 ≤ 15 && p.2 ≤ 15

/-- Modelled from the spec: the code calls `bevy_ecs_tilemap`'s
`get_neighboring_pos` (an external crate, not in `src/`) and keeps the first 4
slots (`.iter().take(4)`).  Per spec §4.1 (`neighbors4`) these are the
orthogonal neighbours in the fixed order up, down, left, right, with
out-of-bounds directions omitted (grid extent `[0,15] × [0,15]`, spec §3). -/
def neighborSlots (p : Pos) : List (Option Pos) :=
  [ if inBounds (p.1, p.2 + 1) then some (p.1, p.2 + 1) else none,
    if 0 < p.2 ∧ inBounds (p.1, p.2 - 1) then some (p.1, p.2 - 1) else none,
    if 0 < p.1 ∧ inBounds (p.1 - 1, p.2) then some (p.1 - 1, p.2) else none,
    if inBounds (p.1 + 1, p.2) then some (p.1 + 1, p.2) else none ]

/-- The in-bounds orthogonal neighbours of `p` (the `filter_map(|f| f.as_ref())`
of the solver's successor closure applied to `neighborSlots`). -/
def neighbors (p : Pos) : List Pos :=
  (neighborSlots p).filterMap id

/-- The solver's successor closure from `solve` in `main.rs`: for each
neighbour position, a tile with `texture_index == END_TILE`, or a gate
(`2..=4`) whose key is held, yields a successor with unchanged keys; a key tile
(`5..=7`) yields a successor with that key set; any other tile blocks; the
absence of a tile entity (the `else` branch of `get_tile_entity`) yields a
successor with unchanged keys.  Every emitted edge has cost 1. -/
def succsFull (m : TileMap) (st : Ferris) : List (Ferris × Nat) :=
  (neighbors st.pos).filterMap fun pos =>
    match m pos with
    | some t =>
      if t = END_TILE ∨ (2 ≤ t ∧ t ≤ 4 ∧ st.keys.get (t - 2) = true) then
        some ({ st with pos := pos }, 1)
      else if 5 ≤ t ∧ t ≤ 7 then
        some ({ pos := pos, keys := st.keys.set (t - 5) true }, 1)
      else
        none
    | none => some ({ st with pos := pos }, 1)

/-- Successor states (the solver's edges with the cost projected away). -/
def succs (m : TileMap) (st : Ferris) : List Ferris :=
  (succsFull m st).map Prod.fst

/-- The solver's heuristic from `solve` in `main.rs`: Manhattan distance
(`d.x.abs() + d.y.abs()` on the `i32` difference vector). -/
def manhattan (a b : Pos) : Nat :=
  ((a.1 : Int) - (b.1 : Int)).natAbs + ((a.2 : Int) - (b.2 : Int)).natAbs

/-- `is_walkable_tile` from `main.rs`. -/
def is_walkable_tile (t : Nat) : Bool :=
  (5 ≤ t && t ≤ 7) || t == START_TILE || t == END_TILE

/-- The manual-step legality rule of `character_input` in `main.rs`, as a
function of the key inventory before the step: with no tile entity at the
target `can_move` stays `true`; with a gate tile (`2..=4`) it is the matching
key bit; otherwise it is `is_walkable_tile`. -/
def can_move (m : TileMap) (ks : Keys) (q : Pos) : Bool :=
  match m q with
  | none => true
  | some t => if 2 ≤ t ∧ t ≤ 4 then ks.get (t - 2) else is_walkable_tile t

/-- One breadth-first expansion: the states of `cur` together with every
solver successor of a state of `cur`, deduplicated. -/
def expand (m : TileMap) (cur : List Ferris) : List Ferris :=
  (cur ++ cur.flatMap (succs m)).dedup

/-- The states reachable from `s` through the solver's successor rule in at
most `k` steps, as a duplicate-free list. -/
def reachList (m : TileMap) (s : Ferris) : Nat → List Ferris
  | 0 => [s]
  | k + 1 => expand m (reachList m s k)

/-- Core of the search: starting at layer `k`, return the first layer index
(together with a witness state) at which a state satisfying the solver's goal
test `state.pos == end_pos` is reachable; `none` once the reachable set stops
growing (goal unreachable) or the fuel runs out. -/
def findGoalAux (m : TileMap) (g : Pos) (s : Ferris) : Nat → Nat → Option (Nat × Ferris)
  | 0, _ => none
  | fuel + 1, k =>
    match (reachList m s k).find? (fun t => decide (t.pos = g)) with
    | some t => some (k, t)
    | none =>
      if (reachList m s (k + 1)).length ≤ (reachList m s k).length then none
      else findGoalAux m g s fuel (k + 1)

/-- Rebuild a concrete state sequence from `s` to `t` of at most `n + 1`
states, walking the breadth-first layers backwards. -/
def reconstruct (m : TileMap) (s : Ferris) : Nat → Ferris → List Ferris
  | 0, t => [t]
  | n + 1, t =>
    if t ∈ reachList m s n then reconstruct m s n t
    else
      match (reachList m s n).find? (fun u => decide (t ∈ succs m u)) with
      | some u => reconstruct m s n u ++ [t]
      | none => []

/-- `solve` from `main.rs`: search the state space (position × key inventory)
for a shortest legal state sequence from `start_state` to the goal position,
returning the full sequence (start included) on success and the empty sequence
(after an error log) when no path exists.

Modelled from the spec: the Rust code delegates the search to
`pathfinding::directed::astar::astar` (an external crate, not in `src/`) with
the successor closure, Manhattan heuristic and goal test embedded above; per
spec §4.2/§8 that call returns a path of minimal total cost (the heuristic is
admissible), and with every edge cost equal to 1 this is realized here by
breadth-first layered search with path reconstruction.  The fuel `2050`
strictly exceeds the `16*16*8 = 2048` bounded state space (spec §4.2) plus a
possibly out-of-bounds caller-supplied start state. -/
def solve (m : TileMap) (start_state : Ferris) (end_pos : Pos) : List Ferris :=
  match findGoalAux m end_pos start_state 2050 0 with
  | some (k, t) => reconstruct m start_state k t
  | none => []

/-- `play_solution` from `main.rs`, acting on one `(Ferris, Solution)` pair:
if the solution queue is non-empty, pop its front state and assign it
wholesale to the character (`*ferris = solution.0.pop_front().unwrap()`);
otherwise leave everything unchanged. -/
def play_solution (ferris : Ferris) (sol : List Ferris) : Ferris × List Ferris :=
  match sol with
  | [] => (ferris, [])
  | st :: rest => (st, rest)

/-- The discrete input events `character_input` reacts to
(`keyboard_input.get_just_pressed()`). -/
inductive KeyCode where
  | up
  | down
  | left
  | right
  | r
  | other
deriving DecidableEq, Repr

/-- One iteration of the key-event loop in `character_input`: directional keys
accumulate on the `i32` coordinates `new_x`/`new_y`; `R` solves from the
(unmodified) current character state and drops the front of the resulting
queue (`solution.pop_front()`). -/
def keyEventStep (m : TileMap) (f : Ferris) (endPos : Pos)
    (acc : Int × Int × Option (List Ferris)) (k : KeyCode) :
    Int × Int × Option (List Ferris) :=
  match k with
  | .up => (acc.1, acc.2.1 + 1, acc.2.2)
  | .down => (acc.1, acc.2.1 - 1, acc.2.2)
  | .left => (acc.1 - 1, acc.2.1, acc.2.2)
  | .right => (acc.1 + 1, acc.2.1, acc.2.2)
  | .r => (acc.1, acc.2.1, some ((solve m f endPos).drop 1))
  | .other => acc

/-- The fold of the whole key-event loop of `character_input`, starting from
the character's current coordinates and no pending solution. -/
def inputFold (m : TileMap) (pressed : List KeyCode) (f : Ferris)
    (endPos : Pos) : Int × Int × Option (List Ferris) :=
  pressed.foldl (keyEventStep m f endPos) ((f.pos.1 : Int), (f.pos.2 : Int), none)

/-- `new_x.clamp(0, 15) as u32` from `character_input`. -/
def clampCoord (v : Int) : Nat := (min 15 (max 0 v)).toNat

/-- The tile rules `character_input` applies at the clamped target position:
a key tile (`5..=7`) sets the matching key bit and is despawned; `can_move`
is `is_walkable_tile` except for gate tiles (`2..=4`), which require (and,
when passable, despawn with) the matching key; absence of a tile entity
leaves `can_move` true.  Returns the updated character and tile layer. -/
def applyTileRules (m : TileMap) (f : Ferris) (newPos : Pos) : Ferris × TileMap :=
  match m newPos with
  | some t =>
    let keys' := if 5 ≤ t ∧ t ≤ 7 then f.keys.set (t - 5) true else f.keys
    let canMove := if 2 ≤ t ∧ t ≤ 4 then keys'.get (t - 2) else is_walkable_tile t
    let despawn := if 2 ≤ t ∧ t ≤ 4 then canMove else decide (5 ≤ t ∧ t ≤ 7)
    (⟨if canMove = true then newPos else f.pos, keys'⟩,
     if despawn = true then (fun p => if p = newPos then none else m p) else m)
  | none => (⟨newPos, f.keys⟩, m)

/-- One tick of `character_input` from `main.rs` for one character: fold the
just-pressed key events, clamp the accumulated coordinates to `[0, 15]`, then
apply the tile rules at the clamped target.  Returns the updated character,
the updated tile layer, and the `Solution` queue inserted by an `R` event, if
any. -/
def character_input (m : TileMap) (pressed : List KeyCode) (f : Ferris)
    (endPos : Pos) : Ferris × TileMap × Option (List Ferris) :=
  let acc := inputFold m pressed f endPos
  let res := applyTileRules m f (clampCoord acc.1, clampCoord acc.2.1)
  (res.1, res.2, acc.2.2)

/-- Reachability from `s` in exactly `n` solver steps: the transitive chain of
the solver's successor rule, the mathematical yardstick the search results are
measured against. -/
inductive Reach (m : TileMap) (s : Ferris) : Nat → Ferris → Prop
  | zero : Reach m s 0 s
  | succ {n : Nat} {u t : Ferris} :
      Reach m s n u → t ∈ succs m u → Reach m s (n + 1) t

/-- A legal solver path from `s` to the goal position `g`: starts at `s`, ends
at a state on `g`, and every consecutive pair is a solver successor step. -/
def SolPath (m : TileMap) (s : Ferris) (g : Pos) (l : List Ferris) : Prop :=
  l.head? = some s ∧ (∃ t, l.getLast? = some t ∧ t.pos = g) ∧
    List.Chain' (fun a b => b ∈ succs m a) l

/-- Gate consistency of a single state (spec §8): the state does not sit on a
gate tile (texture index `2..=4`) whose key bit `index - 2` it lacks. -/
def gateOk (m : TileMap) (st : Ferris) : Bool :=
  match m st.pos with
  | some w => if 2 ≤ w ∧ w ≤ 4 then st.keys.get (w - 2) else true
  | none => true

theorem mem_neighbors {p q : Pos} (h : q ∈ neighbors p) :
    (q.1 ≤ 15 ∧ q.2 ≤ 15) ∧ manhattan p q = 1 := by
  obtain ⟨o, ho, hid⟩ := List.mem_filterMap.mp h
  simp only [id_eq] at hid
  subst hid
  obtain ⟨a, b⟩ := p
  simp only [neighborSlots, List.mem_cons, List.not_mem_nil, or_false] at ho
  rcases ho with h1 | h1 | h1 | h1 <;> split at h1 <;>
    simp only [Option.some.injEq, reduceCtorEq] at h1 <;> subst h1 <;>
    simp_all [inBounds, manhattan]

theorem Keys.get_set_true_mono (ks : Keys) (i j : Nat) (h : ks.get j = true) :
    (ks.set i true).get j = true := by
  rcases ks with ⟨a, b, c⟩
  rcases i with _ | _ | _ | i <;> rcases j with _ | _ | _ | j <;>
    simp_all [Keys.get, Keys.set]

/-- Case analysis of one solver successor step, read off the successor closure
of `solve`. -/
theorem succs_cases {m : TileMap} {u t : Ferris} (h : t ∈ succs m u) :
    t.pos ∈ neighbors u.pos ∧
      ((m t.pos = none ∧ t.keys = u.keys) ∨
       (m t.pos = some END_TILE ∧ t.keys = u.keys) ∨
       (∃ w, m t.pos = some w ∧ 2 ≤ w ∧ w ≤ 4 ∧ u.keys.get (w - 2) = true ∧
         t.keys = u.keys) ∨
       (∃ w, m t.pos = some w ∧ 5 ≤ w ∧ w ≤ 7 ∧
         t.keys = u.keys.set (w - 5) true)) := by
  obtain ⟨⟨t', c⟩, hmem, rfl⟩ := List.mem_map.mp h
  obtain ⟨q, hq, hf⟩ := List.mem_filterMap.mp hmem
  rcases hm : m q with _ | w
  · rw [hm] at hf
    simp only [Option.some.injEq, Prod.mk.injEq] at hf
    obtain ⟨rfl, -⟩ := hf
    exact ⟨hq, Or.inl ⟨hm, rfl⟩⟩
  · rw [hm] at hf
    simp only [] at hf
    split at hf
    · rename_i hcond
      simp only [Option.some.injEq, Prod.mk.injEq] at hf
      obtain ⟨rfl, -⟩ := hf
      rcases hcond with hend | ⟨h2, h4, hkey⟩
      · subst hend; exact ⟨hq, Or.inr (Or.inl ⟨hm, rfl⟩)⟩
      · exact ⟨hq, Or.inr (Or.inr (Or.inl ⟨w, hm, h2, h4, hkey, rfl⟩))⟩
    · split at hf
      · rename_i hkeyrange
        simp only [Option.some.injEq, Prod.mk.injEq] at hf
        obtain ⟨rfl, -⟩ := hf
        exact ⟨hq, Or.inr (Or.inr (Or.inr
          ⟨w, hm, hkeyrange.1, hkeyrange.2, rfl⟩))⟩
      · exact absurd hf (by simp)

theorem succs_pos_neighbor {m : TileMap} {u t : Ferris} (h : t ∈ succs m u) :
    t.pos ∈ neighbors u.pos := (succs_cases h).1

theorem succs_inbounds {m : TileMap} {u t : Ferris} (h : t ∈ succs m u) :
    t.pos.1 ≤ 15 ∧ t.pos.2 ≤ 15 :=
  (mem_neighbors (succs_pos_neighbor h)).1

theorem succs_step_one {m : TileMap} {u t : Ferris} (h : t ∈ succs m u) :
    manhattan u.pos t.pos = 1 :=
  (mem_neighbors (succs_pos_neighbor h)).2

theorem succs_keys_mono {m : TileMap} {u t : Ferris} (h : t ∈ succs m u) :
    ∀ j, u.keys.get j = true → t.keys.get j = true := by
  intro j hj
  rcases (succs_cases h).2 with ⟨-, hk⟩ | ⟨-, hk⟩ | ⟨w, -, -, -, -, hk⟩ |
    ⟨w, -, -, -, hk⟩ <;> rw [hk]
  · exact hj
  · exact hj
  · exact hj
  · exact Keys.get_set_true_mono _ _ _ hj

theorem succs_gateOk {m : TileMap} {u t : Ferris} (h : t ∈ succs m u) :
    gateOk m t = true := by
  rcases (succs_cases h).2 with ⟨hm, hk⟩ | ⟨hm, hk⟩ |
    ⟨w, hm, h2, h4, hkey, hk⟩ | ⟨w, hm, h5, h7, hk⟩ <;>
    simp only [gateOk, hm]
  · split
    · rename_i hc; exact absurd hc (by simp [END_TILE])
    · rfl
  · split
    · rw [hk]; exact hkey
    · rfl
  · split
    · rename_i hc; omega
    · rfl

theorem succs_legal {m : TileMap} {u t : Ferris} (h : t ∈ succs m u) :
    can_move m u.keys t.pos = true := by
  rcases (succs_cases h).2 with ⟨hm, hk⟩ | ⟨hm, hk⟩ |
    ⟨w, hm, h2, h4, hkey, hk⟩ | ⟨w, hm, h5, h7, hk⟩ <;>
    simp only [can_move, hm]
  · split
    · rename_i hc; exact absurd hc (by simp [END_TILE])
    · decide
  · split
    · exact hkey
    · rename_i hc; exact absurd ⟨h2, h4⟩ hc
  · split
    · rename_i hc; omega
    · simp only [is_walkable_tile, Bool.or_eq_true, Bool.and_eq_true,
        decide_eq_true_eq, beq_iff_eq, START_TILE, END_TILE]
      omega

theorem succsFull_cost_one {m : TileMap} {u : Ferris} {t : Ferris} {c : Nat}
    (h : (t, c) ∈ succsFull m u) : c = 1 := by
  obtain ⟨q, hq, hf⟩ := List.mem_filterMap.mp h
  rcases hm : m q with _ | w <;> rw [hm] at hf
  · simp only [Option.some.injEq, Prod.mk.injEq] at hf
    exact hf.2.symm
  · simp only [] at hf
    split at hf
    · simp only [Option.some.injEq, Prod.mk.injEq] at hf; exact hf.2.symm
    · split at hf
      · simp only [Option.some.injEq, Prod.mk.injEq] at hf; exact hf.2.symm
      · exact absurd hf (by simp)

theorem reach_zero_eq {m : TileMap} {s t : Ferris} (h : Reach m s 0 t) : t = s := by
  cases h; rfl

theorem reach_succ_elim {m : TileMap} {s t : Ferris} {n : Nat}
    (h : Reach m s (n + 1) t) : ∃ u, Reach m s n u ∧ t ∈ succs m u := by
  cases h with
  | succ hu hstep => exact ⟨_, hu, hstep⟩

theorem mem_expand {m : TileMap} {cur : List Ferris} {t : Ferris} :
    t ∈ expand m cur ↔ t ∈ cur ∨ ∃ u ∈ cur, t ∈ succs m u := by
  simp [expand, List.mem_dedup, List.mem_flatMap]

theorem mem_reachList {m : TileMap} {s : Ferris} :
    ∀ {k : Nat} {t : Ferris},
      t ∈ reachList m s k ↔ ∃ j ≤ k, Reach m s j t := by
  intro k
  induction k with
  | zero =>
    intro t
    simp only [reachList, List.mem_singleton]
    constructor
    · rintro rfl; exact ⟨0, Nat.le_refl 0, Reach.zero⟩
    · rintro ⟨j, hj, hr⟩
      obtain rfl := Nat.le_zero.mp hj
      exact (reach_zero_eq hr)
  | succ k ih =>
    intro t
    rw [reachList, mem_expand]
    constructor
    · rintro (ht | ⟨u, hu, hstep⟩)
      · obtain ⟨j, hj, hr⟩ := ih.mp ht
        exact ⟨j, Nat.le_succ_of_le hj, hr⟩
      · obtain ⟨j, hj, hr⟩ := ih.mp hu
        exact ⟨j + 1, Nat.succ_le_succ hj, Reach.succ hr hstep⟩
    · rintro ⟨j, hj, hr⟩
      rcases Nat.lt_or_ge j (k + 1) with hlt | hge
      · exact Or.inl (ih.mpr ⟨j, Nat.lt_succ_iff.mp hlt, hr⟩)
      · obtain rfl : j = k + 1 := Nat.le_antisymm hj hge
        obtain ⟨u, hu, hstep⟩ := reach_succ_elim hr
        exact Or.inr ⟨u, ih.mpr ⟨k, Nat.le_refl k, hu⟩, hstep⟩

theorem reachList_nodup (m : TileMap) (s : Ferris) :
    ∀ k, (reachList m s k).Nodup
  | 0 => List.nodup_singleton s
  | _ + 1 => List.nodup_dedup _

theorem reachList_mono {m : TileMap} {s : Ferris} {k : Nat} {t : Ferris}
    (h : t ∈ reachList m s k) : t ∈ reachList m s (k + 1) := by
  rw [reachList, mem_expand]; exact Or.inl h

theorem reach_bound {m : TileMap} {s : Ferris} {n : Nat} {t : Ferris}
    (h : Reach m s n t) : t = s ∨ (t.pos.1 ≤ 15 ∧ t.pos.2 ≤ 15) := by
  induction h with
  | zero => exact Or.inl rfl
  | succ _ hstep _ => exact Or.inr (succs_inbounds hstep)

/-- Injective code of an in-bounds state, for the `16*16*8` cardinality bound
of spec §4.2. -/
def encodeF (x : Ferris) : Nat :=
  x.pos.1 + 16 * x.pos.2 +
    256 * (cond x.keys.k0 1 0 + 2 * cond x.keys.k1 1 0 + 4 * cond x.keys.k2 1 0)

/-- Left inverse of `encodeF` on in-bounds states. -/
def decodeF (n : Nat) : Ferris :=
  ⟨(n % 16, n / 16 % 16),
   ⟨n / 256 % 2 == 1, n / 256 / 2 % 2 == 1, n / 256 / 4 % 2 == 1⟩⟩

theorem decodeF_encodeF {x : Ferris} (h1 : x.pos.1 ≤ 15) (h2 : x.pos.2 ≤ 15) :
    decodeF (encodeF x) = x := by
  obtain ⟨⟨a, b⟩, ⟨b0, b1, b2⟩⟩ := x
  simp only at h1 h2
  cases b0 <;> cases b1 <;> cases b2 <;>
    simp only [encodeF, decodeF, cond_true, cond_false, Ferris.mk.injEq,
      Prod.mk.injEq, Keys.mk.injEq, beq_iff_eq, beq_eq_false_iff_ne] <;>
    refine ⟨⟨by omega, by omega⟩, ?_, ?_, ?_⟩ <;> simp <;> omega

theorem encodeF_lt {x : Ferris} (h1 : x.pos.1 ≤ 15) (h2 : x.pos.2 ≤ 15) :
    encodeF x < 2048 := by
  obtain ⟨⟨a, b⟩, ⟨b0, b1, b2⟩⟩ := x
  simp only at h1 h2
  cases b0 <;> cases b1 <;> cases b2 <;> simp only [encodeF, cond_true, cond_false] <;>
    omega

/-- All states the search can ever hold: the (possibly out-of-bounds) start
state plus the `16*16*8 = 2048` in-bounds states. -/
def ferrisUniverse (s : Ferris) : Finset Ferris :=
  insert s ((Finset.range 2048).image decodeF)

theorem card_ferrisUniverse (s : Ferris) : (ferrisUniverse s).card ≤ 2049 := by
  calc (ferrisUniverse s).card
      ≤ ((Finset.range 2048).image decodeF).card + 1 := Finset.card_insert_le _ _
    _ ≤ (Finset.range 2048).card + 1 :=
        Nat.add_le_add_right (Finset.card_image_le) 1
    _ = 2049 := by rw [Finset.card_range]

theorem mem_ferrisUniverse {s x : Ferris}
    (h : x = s ∨ (x.pos.1 ≤ 15 ∧ x.pos.2 ≤ 15)) : x ∈ ferrisUniverse s := by
  rcases h with rfl | ⟨h1, h2⟩
  · exact Finset.mem_insert_self _ _
  · refine Finset.mem_insert_of_mem (Finset.mem_image.mpr ⟨encodeF x, ?_, ?_⟩)
    · exact Finset.mem_range.mpr (encodeF_lt h1 h2)
    · exact decodeF_encodeF h1 h2

theorem reachList_length_le (m : TileMap) (s : Ferris) (k : Nat) :
    (reachList m s k).length ≤ 2049 := by
  have hnd := reachList_nodup m s k
  have hsub : (reachList m s k).toFinset ⊆ ferrisUniverse s := by
    intro x hx
    rw [List.mem_toFinset] at hx
    obtain ⟨j, _, hr⟩ := mem_reachList.mp hx
    exact mem_ferrisUniverse (reach_bound hr)
  calc (reachList m s k).length
      = (reachList m s k).toFinset.card := (List.toFinset_card_of_nodup hnd).symm
    _ ≤ (ferrisUniverse s).card := Finset.card_le_card hsub
    _ ≤ 2049 := card_ferrisUniverse s

theorem findGoalAux_sound {m : TileMap} {g : Pos} {s : Ferris} :
    ∀ {fuel k j : Nat} {t : Ferris},
      (∀ i, i < k → ∀ x, Reach m s i x → x.pos ≠ g) →
      findGoalAux m g s fuel k = some (j, t) →
      t.pos = g ∧ Reach m s j t ∧
        (∀ i x, Reach m s i x → x.pos = g → j ≤ i) := by
  intro fuel
  induction fuel with
  | zero =>
    intro k j t _ h
    simp [findGoalAux] at h
  | succ fuel ih =>
    intro k j t hbelow h
    rw [findGoalAux] at h
    split at h
    · rename_i t0 hfind
      simp only [Option.some.injEq, Prod.mk.injEq] at h
      rw [← h.1, ← h.2]
      have hpos : t0.pos = g := by
        have := List.find?_some hfind
        simpa using this
      have hmin : ∀ i x, Reach m s i x → x.pos = g → k ≤ i := by
        intro i x hr hxg
        by_contra hlt
        exact hbelow i (Nat.lt_of_not_le hlt) x hr hxg
      obtain ⟨i, hik, hr⟩ := mem_reachList.mp (List.mem_of_find?_eq_some hfind)
      have hieq : i = k := Nat.le_antisymm hik (hmin i t0 hr hpos)
      exact ⟨hpos, by rw [← hieq]; exact hr, hmin⟩
    · rename_i hfind
      split at h
      · exact absurd h (by simp)
      · have hbelow' : ∀ i, i < k + 1 → ∀ x, Reach m s i x → x.pos ≠ g := by
          intro i hi x hr
          rcases Nat.lt_or_ge i k with hik | hik
          · exact hbelow i hik x hr
          · have hik2 : i = k := by omega
            have hx : x ∈ reachList m s k :=
              mem_reachList.mpr ⟨k, Nat.le_refl k, by rw [← hik2]; exact hr⟩
            have := List.find?_eq_none.mp hfind x hx
            simpa using this
        exact ih hbelow' h

theorem findGoalAux_complete {m : TileMap} {g : Pos} {s : Ferris} :
    ∀ {fuel k : Nat},
      2051 ≤ fuel + (reachList m s k).length →
      (∃ n x, Reach m s n x ∧ x.pos = g) →
      (findGoalAux m g s fuel k).isSome = true := by
  intro fuel
  induction fuel with
  | zero =>
    intro k hfuel _
    exfalso
    have := reachList_length_le m s k
    omega
  | succ fuel ih =>
    intro k hfuel hreach
    rw [findGoalAux]
    split
    · simp
    · rename_i hfind
      split
      · rename_i hstab
        exfalso
        have hsub : (reachList m s k).toFinset ⊆ (reachList m s (k + 1)).toFinset := by
          intro x hx
          rw [List.mem_toFinset] at hx ⊢
          exact reachList_mono hx
        have hcard : (reachList m s (k + 1)).toFinset.card ≤
            (reachList m s k).toFinset.card := by
          rw [List.toFinset_card_of_nodup (reachList_nodup m s k),
            List.toFinset_card_of_nodup (reachList_nodup m s (k + 1))]
          exact hstab
        have hfeq := Finset.eq_of_subset_of_card_le hsub hcard
        have hset : ∀ x, x ∈ reachList m s (k + 1) ↔ x ∈ reachList m s k := by
          intro x
          rw [← List.mem_toFinset, ← List.mem_toFinset (l := reachList m s k), hfeq]
        have hclosed : ∀ {n x}, Reach m s n x → x ∈ reachList m s k := by
          intro n x hr
          induction hr with
          | zero => exact mem_reachList.mpr ⟨0, Nat.zero_le k, Reach.zero⟩
          | succ hu hstep ihu =>
            refine (hset _).mp ?_
            rw [reachList, mem_expand]
            exact Or.inr ⟨_, ihu, hstep⟩
        obtain ⟨n, x, hr, hpos⟩ := hreach
        have := List.find?_eq_none.mp hfind x (hclosed hr)
        simp [hpos] at this
      · rename_i hstab
        refine ih ?_ hreach
        have := Nat.lt_of_not_le hstab
        omega

theorem head?_append_left {α : Type} {l l' : List α} {a : α}
    (h : l.head? = some a) : (l ++ l').head? = some a := by
  cases l with
  | nil => simp at h
  | cons b t => simpa using h

theorem reconstruct_spec {m : TileMap} {s : Ferris} :
    ∀ {n : Nat} {t : Ferris}, (∃ j, j ≤ n ∧ Reach m s j t) →
      (reconstruct m s n t).head? = some s ∧
      (reconstruct m s n t).getLast? = some t ∧
      List.Chain' (fun a b => b ∈ succs m a) (reconstruct m s n t) ∧
      (reconstruct m s n t).length ≤ n + 1 := by
  intro n
  induction n with
  | zero =>
    rintro t ⟨j, hj, hr⟩
    obtain rfl := Nat.le_zero.mp hj
    obtain rfl := reach_zero_eq hr
    simp [reconstruct]
  | succ n ih =>
    rintro t ht
    rw [reconstruct]
    split
    · rename_i hmem
      have h := ih (mem_reachList.mp hmem)
      exact ⟨h.1, h.2.1, h.2.2.1, Nat.le_trans h.2.2.2 (by omega)⟩
    · rename_i hnotmem
      obtain ⟨j, hj, hr⟩ := ht
      obtain rfl : j = n + 1 := by
        rcases Nat.lt_or_ge j (n + 1) with hlt | hge
        · exact absurd (mem_reachList.mpr ⟨j, by omega, hr⟩) hnotmem
        · omega
      obtain ⟨u, hu, hstep⟩ := reach_succ_elim hr
      cases hfind : (reachList m s n).find? (fun u => decide (t ∈ succs m u)) with
      | none =>
        exfalso
        have := List.find?_eq_none.mp hfind u
          (mem_reachList.mpr ⟨n, Nat.le_refl n, hu⟩)
        simp [hstep] at this
      | some u0 =>
        have hu0step : t ∈ succs m u0 := by
          have := List.find?_some hfind
          simpa using this
        have ihu := ih (mem_reachList.mp (List.mem_of_find?_eq_some hfind))
        refine ⟨head?_append_left ihu.1, ?_, ?_, ?_⟩
        · simp [List.getLast?_concat]
        · refine List.chain'_append.mpr ⟨ihu.2.2.1, List.chain'_singleton t, ?_⟩
          intro x hx y hy
          rw [ihu.2.1] at hx
          simp only [Option.mem_def, Option.some.injEq] at hx
          simp only [List.head?_cons, Option.mem_def, Option.some.injEq] at hy
          subst hx; subst hy
          exact hu0step
        · have := ihu.2.2.2
          simp only [List.length_append, List.length_singleton]
          omega

/-- Any legal solver path witnesses reachability of its last state in
`length - 1` steps. -/
theorem chain_reach {m : TileMap} {s : Ferris} {l : List Ferris} {t : Ferris}
    (hhead : l.head? = some s) (hlast : l.getLast? = some t)
    (hchain : List.Chain' (fun a b => b ∈ succs m a) l) :
    Reach m s (l.length - 1) t := by
  induction l using List.reverseRecOn generalizing t with
  | nil => simp at hhead
  | append_singleton l' a ih =>
    obtain rfl : t = a := by
      have := hlast
      simp [List.getLast?_concat] at this
      exact this.symm
    cases l' with
    | nil =>
      obtain rfl : t = s := by simpa using hhead
      exact Reach.zero
    | cons b l'' =>
      have hchain' := List.chain'_append.mp hchain
      cases hu : (b :: l'').getLast? with
      | none => simp [List.getLast?_eq_none_iff] at hu
      | some u =>
        have hstep : t ∈ succs m u := by
          refine hchain'.2.2 u ?_ t ?_ <;> simp [hu]
        have hh : (b :: l'').head? = some s := by simpa using hhead
        have ihr := ih hh hu hchain'.1
        have := Reach.succ ihr hstep
        have hlen : (b :: l'').length - 1 + 1 = (b :: l'' ++ [t]).length - 1 := by
          simp
        rw [hlen] at this
        simpa using this

/-- The four directional key events (`Up`/`Down`/`Left`/`Right`). -/
def isDirectional : KeyCode → Bool
  | .up | .down | .left | .right => true
  | .r | .other => false

theorem solve_found_spec {m : TileMap} {s : Ferris} {g : Pos} {k : Nat}
    {t : Ferris} (h : findGoalAux m g s 2050 0 = some (k, t)) :
    t.pos = g ∧ Reach m s k t ∧
      (∀ i x, Reach m s i x → x.pos = g → k ≤ i) :=
  findGoalAux_sound (fun i hi => absurd hi (Nat.not_lt_zero i)) h

/-- Everything the non-empty output of `solve` satisfies: starts at the start
state, ends on the goal position, every consecutive pair is a solver
successor step, and the length is minimal among reachability witnesses. -/
theorem solve_path_spec {m : TileMap} {s : Ferris} {g : Pos} {p : List Ferris}
    (hp : solve m s g = p) (hne : p ≠ []) :
    p.head? = some s ∧ (∃ t, p.getLast? = some t ∧ t.pos = g) ∧
      List.Chain' (fun a b => b ∈ succs m a) p ∧
      ∀ i x, Reach m s i x → x.pos = g → p.length ≤ i + 1 := by
  rw [solve] at hp
  split at hp
  · rename_i k t hfga
    have hs := solve_found_spec hfga
    have hrec := reconstruct_spec ⟨k, Nat.le_refl k, hs.2.1⟩
    rw [← hp]
    refine ⟨hrec.1, ⟨t, hrec.2.1, hs.1⟩, hrec.2.2.1, ?_⟩
    intro i x hrx hxg
    have h1 := hs.2.2 i x hrx hxg
    have h2 := hrec.2.2.2
    omega
  · exact absurd hp.symm hne

theorem solPath_reach {m : TileMap} {s : Ferris} {g : Pos} {l : List Ferris}
    (h : SolPath m s g l) : ∃ t, Reach m s (l.length - 1) t ∧ t.pos = g := by
  obtain ⟨hh, ⟨t, hl, hg⟩, hc⟩ := h
  exact ⟨t, chain_reach hh hl hc, hg⟩

theorem chain'_mem_tail {α : Type} {R : α → α → Prop} :
    ∀ {l : List α} {b : α}, List.Chain' R l → b ∈ l.tail → ∃ a, R a b := by
  intro l
  induction l with
  | nil => intro b _ hb; simp at hb
  | cons x xs ih =>
    intro b hc hb
    simp only [List.tail_cons] at hb
    cases xs with
    | nil => simp at hb
    | cons y ys =>
      rcases List.mem_cons.mp hb with rfl | hb'
      · exact ⟨x, (List.chain'_cons.mp hc).1⟩
      · exact ih (List.chain'_cons.mp hc).2 hb'

theorem chain'_get_le {α : Type} {R S : α → α → Prop}
    (hRS : ∀ a b, R a b → S a b) (hrefl : ∀ a, S a a)
    (htrans : ∀ a b c, S a b → S b c → S a c)
    {l : List α} (hc : List.Chain' R l) (i j : Nat) (hi : i < l.length)
    (hij : i ≤ j) :
    ∀ (hj : j < l.length), S (l.get ⟨i, hi⟩) (l.get ⟨j, hj⟩) := by
  induction j, hij using Nat.le_induction with
  | base => intro hj; exact hrefl _
  | succ j hij ih =>
    intro hj
    have hj' : j < l.length := by omega
    have hstep := List.chain'_iff_get.mp hc j (by omega)
    exact htrans _ _ _ (ih hj') (hRS _ _ hstep)

theorem clampCoord_le (v : Int) : clampCoord v ≤ 15 := by
  simp only [clampCoord]
  omega

theorem clampCoord_near {v : Int} {x : Nat} (hx : x ≤ 15) :
    ((clampCoord v : Int) - x).natAbs ≤ (v - x).natAbs := by
  simp only [clampCoord]
  omega

theorem applyTileRules_pos (m : TileMap) (f : Ferris) (q : Pos) :
    (applyTileRules m f q).1.pos = q ∨ (applyTileRules m f q).1.pos = f.pos := by
  rw [applyTileRules]
  split
  · dsimp only
    repeat' split
    all_goals first | exact Or.inl rfl | exact Or.inr rfl
  · exact Or.inl rfl

theorem character_input_fst (m : TileMap) (pressed : List KeyCode) (f : Ferris)
    (g : Pos) :
    (character_input m pressed f g).1 =
      (applyTileRules m f (clampCoord (inputFold m pressed f g).1,
        clampCoord (inputFold m pressed f g).2.1)).1 := rfl

theorem foldTick_disp (m : TileMap) (f : Ferris) (g : Pos) :
    ∀ (pressed : List KeyCode) (acc : Int × Int × Option (List Ferris)),
      ((pressed.foldl (keyEventStep m f g) acc).1 - acc.1).natAbs +
        ((pressed.foldl (keyEventStep m f g) acc).2.1 - acc.2.1).natAbs ≤
        (pressed.filter isDirectional).length := by
  intro pressed
  induction pressed with
  | nil => intro acc; simp
  | cons k ks ih =>
    intro acc
    have h := ih (keyEventStep m f g acc k)
    cases k <;>
      simp [List.foldl_cons, List.filter_cons, keyEventStep, isDirectional] at h ⊢ <;>
      omega

/-- The all-false key inventory a character starts with. -/
def allFalse : Keys := ⟨false, false, false⟩

/-- A character at the origin with no keys. -/
def originFerris : Ferris := ⟨(0, 0), allFalse⟩

/-- 3-cell corridor fixture: open floor at (0,0), (1,0), (2,0), walls
elsewhere. -/
def corridorMap : TileMap := fun p =>
  if p = (0, 0) ∨ p = (1, 0) ∨ p = (2, 0) then none else some 1

/-- The unique shortest solver path through `corridorMap` to (2,0). -/
def corridorPath : List Ferris :=
  [⟨(0, 0), allFalse⟩, ⟨(1, 0), allFalse⟩, ⟨(2, 0), allFalse⟩]

/-- Spec §8 scenario fixture: `Key(0)` at (1,0), `Gate(0)` at (2,0), open
floor at (0,0) and (3,0), walls elsewhere. -/
def keyGateMap : TileMap := fun p =>
  if p = (1, 0) then some 5
  else if p = (2, 0) then some 2
  else if p = (0, 0) ∨ p = (3, 0) then none
  else some 1

/-- The unique shortest solver path through `keyGateMap` to (3,0). -/
def keyPath : List Ferris :=
  [⟨(0, 0), allFalse⟩, ⟨(1, 0), ⟨true, false, false⟩⟩,
   ⟨(2, 0), ⟨true, false, false⟩⟩, ⟨(3, 0), ⟨true, false, false⟩⟩]

/-- Fixture with every cell except the origin walled off. -/
def sealedMap : TileMap := fun p => if p = (0, 0) then none else some 1

/-- Fixture with a locked `Gate(0)` tile under the origin. -/
def gateTrapMap : TileMap := fun p => if p = (0, 0) then some 2 else none

/-- Fixture with the `Start` tile (texture index 18) at (1,0). -/
def startTileMap : TileMap := fun p =>
  if p = (1, 0) then some START_TILE else none

/-- Fixture without any tile entity. -/
def emptyMap : TileMap := fun _ => none

/-- A character in the middle of the grid with no keys. -/
def centerFerris : Ferris := ⟨(5, 5), allFalse⟩

/-- C1: for every grid, start character state, and goal position reachable
through the solver's successor rule, the sequence returned by `solve` is a
legal solver path from the start to the goal whose length equals the true
shortest legal path length over the state space (location × key inventory):
it is a `SolPath` and no `SolPath` is shorter. -/
theorem solve_returns_shortest_path (m : TileMap) (s : Ferris) (g : Pos)
    (hreach : ∃ n t, Reach m s n t ∧ t.pos = g) :
    SolPath m s g (solve m s g) ∧
      ∀ q, SolPath m s g q → (solve m s g).length ≤ q.length := by
  have hfuel : 2051 ≤ 2050 + (reachList m s 0).length := by
    simp [reachList]
  have hsome := findGoalAux_complete hfuel hreach
  obtain ⟨⟨k, t⟩, hfga⟩ := Option.isSome_iff_exists.mp hsome
  have hs := solve_found_spec hfga
  have hrec := reconstruct_spec ⟨k, Nat.le_refl k, hs.2.1⟩
  have hsolve : solve m s g = reconstruct m s k t := by rw [solve, hfga]
  constructor
  · rw [hsolve]
    exact ⟨hrec.1, ⟨t, hrec.2.1, hs.1⟩, hrec.2.2.1⟩
  · intro q hq
    obtain ⟨tq, hrq, hg⟩ := solPath_reach hq
    have hk := hs.2.2 _ _ hrq hg
    have hlen := hrec.2.2.2
    have hqne : q ≠ [] := by
      intro h0
      rw [h0] at hq
      simp [SolPath] at hq
    have hq1 : 1 ≤ q.length := List.length_pos.mpr hqne
    rw [hsolve]
    omega

/-- Witness for C1 on the spec §8 key/gate scenario fixture. -/
theorem solve_returns_shortest_path_witness :
    (∃ n t, Reach keyGateMap originFerris n t ∧ t.pos = (3, 0)) ∧
      (SolPath keyGateMap originFerris (3, 0)
          (solve keyGateMap originFerris (3, 0)) ∧
        ∀ q, SolPath keyGateMap originFerris (3, 0) q →
          (solve keyGateMap originFerris (3, 0)).length ≤ q.length) := by
  have hreach : ∃ n t, Reach keyGateMap originFerris n t ∧ t.pos = (3, 0) := by
    refine ⟨3, ⟨(3, 0), ⟨true, false, false⟩⟩, ?_, rfl⟩
    have h1 : (⟨(1, 0), ⟨true, false, false⟩⟩ : Ferris) ∈
        succs keyGateMap originFerris := by decide
    have h2 : (⟨(2, 0), ⟨true, false, false⟩⟩ : Ferris) ∈
        succs keyGateMap ⟨(1, 0), ⟨true, false, false⟩⟩ := by decide
    have h3 : (⟨(3, 0), ⟨true, false, false⟩⟩ : Ferris) ∈
        succs keyGateMap ⟨(2, 0), ⟨true, false, false⟩⟩ := by decide
    exact Reach.succ (Reach.succ (Reach.succ Reach.zero h1) h2) h3
  exact ⟨hreach, solve_returns_shortest_path keyGateMap originFerris (3, 0) hreach⟩

/-- C2: whenever `solve` returns a non-empty sequence, its first element is
the start state passed in, its last element's position is the goal position
regardless of that state's key inventory, and every intermediate state is
included in order (consecutive elements are successor steps, so no state is
skipped). -/
theorem solve_endpoints (m : TileMap) (s : Ferris) (g : Pos) (p : List Ferris)
    (hp : solve m s g = p) (hne : p ≠ []) :
    p.head? = some s ∧ (∃ t, p.getLast? = some t ∧ t.pos = g) ∧
      List.Chain' (fun a b => b ∈ succs m a) p :=
  ⟨(solve_path_spec hp hne).1, (solve_path_spec hp hne).2.1,
    (solve_path_spec hp hne).2.2.1⟩

/-- Witness for C2 on the corridor fixture. -/
theorem solve_endpoints_witness :
    (solve corridorMap originFerris (2, 0) = corridorPath ∧
      corridorPath ≠ []) ∧
    (corridorPath.head? = some originFerris ∧
      (∃ t, corridorPath.getLast? = some t ∧ t.pos = (2, 0)) ∧
      List.Chain' (fun a b => b ∈ succs corridorMap a) corridorPath) := by
  have hp : solve corridorMap originFerris (2, 0) = corridorPath := by decide
  have hne : corridorPath ≠ [] := by decide
  exact ⟨⟨hp, hne⟩, solve_endpoints _ _ _ _ hp hne⟩

/-- C3: in every returned Solution, every consecutive pair of states differs
by exactly one orthogonal grid step (Manhattan distance 1), and the step is
legal per the manual-step legality rule evaluated against the key inventory
held before the step. -/
theorem solve_steps_legal (m : TileMap) (s : Ferris) (g : Pos)
    (p : List Ferris) (hp : solve m s g = p) :
    List.Chain' (fun a b => manhattan a.pos b.pos = 1 ∧
      can_move m a.keys b.pos = true) p := by
  by_cases hne : p = []
  · rw [hne]; exact List.chain'_nil
  · exact List.Chain'.imp
      (fun a b hab => ⟨succs_step_one hab, succs_legal hab⟩)
      (solve_path_spec hp hne).2.2.1

/-- Witness for C3 on the key/gate fixture. -/
theorem solve_steps_legal_witness :
    solve keyGateMap originFerris (3, 0) = keyPath ∧
      List.Chain' (fun a b => manhattan a.pos b.pos = 1 ∧
        can_move keyGateMap a.keys b.pos = true) keyPath := by
  have hp : solve keyGateMap originFerris (3, 0) = keyPath := by decide
  exact ⟨hp, solve_steps_legal _ _ _ _ hp⟩

/-- C4 counterexample: a Solution returned by `solve` can contain a state on
a locked gate, because the caller-supplied start state is echoed unchecked:
with a `Gate(0)` tile under the start and no keys, `solve` returns the
one-state sequence holding that start. -/
theorem gate_consistency_cex :
    ¬ ∀ st ∈ solve gateTrapMap originFerris (0, 0),
        gateOk gateTrapMap st = true := by decide

/-- C4 amended: in every returned Solution, no state after the first occupies
a `Gate(k)` cell (texture index `2..=4`, `k = index - 2`) while its key bit
`k` is false; the first state is the caller's start state, echoed as-is. -/
theorem gate_consistency_after_first (m : TileMap) (s : Ferris) (g : Pos)
    (p : List Ferris) (hp : solve m s g = p) :
    ∀ st ∈ p.tail, gateOk m st = true := by
  intro st hst
  by_cases hne : p = []
  · rw [hne] at hst; simp at hst
  · obtain ⟨a, ha⟩ := chain'_mem_tail (solve_path_spec hp hne).2.2.1 hst
    exact succs_gateOk ha

/-- Witness for the amended C4 on the key/gate fixture. -/
theorem gate_consistency_after_first_witness :
    solve keyGateMap originFerris (3, 0) = keyPath ∧
      ∀ st ∈ keyPath.tail, gateOk keyGateMap st = true := by
  have hp : solve keyGateMap originFerris (3, 0) = keyPath := by decide
  exact ⟨hp, gate_consistency_after_first _ _ _ _ hp⟩

/-- C5: in every returned Solution the key inventory is monotone along the
sequence: for every key index, once a bit is true in some state it is true in
every later state (hence no state ever clears a bit set in its
predecessor). -/
theorem solve_keys_monotone (m : TileMap) (s : Ferris) (g : Pos)
    (p : List Ferris) (hp : solve m s g = p) :
    ∀ (i j : Nat) (hi : i < p.length) (hj : j < p.length), i ≤ j → ∀ b,
      (p.get ⟨i, hi⟩).keys.get b = true →
      (p.get ⟨j, hj⟩).keys.get b = true := by
  intro i j hi hj hij b
  by_cases hne : p = []
  · rw [hne] at hi; simp at hi
  · have hchain := (solve_path_spec hp hne).2.2.1
    have hmono := chain'_get_le
      (S := fun a b : Ferris => ∀ c, a.keys.get c = true → b.keys.get c = true)
      (fun a b hab c => succs_keys_mono hab c)
      (fun a c h => h)
      (fun a b c hab hbc d hd => hbc d (hab d hd))
      hchain i j hi hij hj
    exact hmono b

/-- Witness for C5 on the key/gate fixture: the key collected at step 1 is
still held at the end. -/
theorem solve_keys_monotone_witness :
    solve keyGateMap originFerris (3, 0) = keyPath ∧
      ((keyPath.get ⟨1, by decide⟩).keys.get 0 = true →
        (keyPath.get ⟨3, by decide⟩).keys.get 0 = true) := by
  have hp : solve keyGateMap originFerris (3, 0) = keyPath := by decide
  exact ⟨hp,
    solve_keys_monotone _ _ _ _ hp 1 3 (by decide) (by decide) (by decide) 0⟩

/-- C6 counterexample: a neighbour cell holding the `Start` tile (texture
index 18) is a legal manual step (`can_move` is true) but the solver's
successor rule emits no successor for it, so the solver and manual movement
paths diverge on `Start` tiles. -/
theorem start_tile_successor_cex :
    (1, 0) ∈ neighbors originFerris.pos ∧
    startTileMap (1, 0) = some START_TILE ∧
    can_move startTileMap originFerris.keys (1, 0) = true ∧
    ∀ x ∈ succsFull startTileMap originFerris, x.1.pos ≠ (1, 0) := by decide

/-- C6 amended: the successor rule emits a successor with unchanged keys and
edge cost 1 for each orthogonal in-bounds neighbour with no tile entity
(classification `Empty`); a neighbour holding the `Start` tile yields no
solver successor even though it is a legal manual step. -/
theorem empty_and_start_tile_successors (m : TileMap) (st : Ferris) (q : Pos)
    (hq : q ∈ neighbors st.pos) :
    (m q = none → ({ st with pos := q }, 1) ∈ succsFull m st) ∧
    (m q = some START_TILE →
      (∀ x ∈ succsFull m st, x.1.pos ≠ q) ∧
      can_move m st.keys q = true) := by
  constructor
  · intro hmq
    refine List.mem_filterMap.mpr ⟨q, hq, ?_⟩
    simp [succsFull, hmq]
  · intro hmq
    constructor
    · intro x hx hxq
      have hx1 : x.1 ∈ succs m st := List.mem_map.mpr ⟨x, hx, rfl⟩
      rcases (succs_cases hx1).2 with ⟨hm, -⟩ | ⟨hm, -⟩ |
        ⟨w, hm, h2, h4, -, -⟩ | ⟨w, hm, h5, h7, -⟩ <;>
        rw [hxq, hmq] at hm <;>
        simp only [Option.some.injEq, reduceCtorEq, START_TILE, END_TILE] at hm <;>
        omega
    · simp only [can_move, hmq]
      rw [if_neg (by decide)]
      decide

/-- Witness for the amended C6 on the start-tile fixture. -/
theorem empty_and_start_tile_successors_witness :
    ((1, 0) ∈ neighbors originFerris.pos) ∧
      ((startTileMap (1, 0) = none →
          ({ originFerris with pos := (1, 0) }, 1) ∈
            succsFull startTileMap originFerris) ∧
       (startTileMap (1, 0) = some START_TILE →
          (∀ x ∈ succsFull startTileMap originFerris, x.1.pos ≠ (1, 0)) ∧
          can_move startTileMap originFerris.keys (1, 0) = true)) := by
  have hq : (1, 0) ∈ neighbors originFerris.pos := by decide
  exact ⟨hq, empty_and_start_tile_successors startTileMap originFerris (1, 0) hq⟩

/-- C7: positions stay within the fixed 16×16 extent: after a manual tick the
character's position is within `[0,15]²` (the clamp guarantees any moved-to
cell is in bounds), and every state of a Solution returned from an in-bounds
start has a position within `[0,15]²`. -/
theorem positions_within_grid (m : TileMap) (pressed : List KeyCode)
    (f s : Ferris) (g : Pos) (p : List Ferris)
    (hf : f.pos.1 ≤ 15 ∧ f.pos.2 ≤ 15) (hs : s.pos.1 ≤ 15 ∧ s.pos.2 ≤ 15)
    (hp : solve m s g = p) :
    ((character_input m pressed f g).1.pos.1 ≤ 15 ∧
      (character_input m pressed f g).1.pos.2 ≤ 15) ∧
    ∀ st ∈ p, st.pos.1 ≤ 15 ∧ st.pos.2 ≤ 15 := by
  constructor
  · rw [character_input_fst]
    rcases applyTileRules_pos m f (clampCoord (inputFold m pressed f g).1,
        clampCoord (inputFold m pressed f g).2.1) with h | h <;> rw [h]
    · exact ⟨clampCoord_le _, clampCoord_le _⟩
    · exact hf
  · intro st hst
    by_cases hne : p = []
    · rw [hne] at hst; simp at hst
    · have hspec := solve_path_spec hp hne
      cases p with
      | nil => simp at hst
      | cons a rest =>
        rcases List.mem_cons.mp hst with rfl | htail
        · have ha : st = s := by
            have := hspec.1
            simpa using this
          rw [ha]; exact hs
        · obtain ⟨u, hu⟩ := chain'_mem_tail hspec.2.2.1 (by simpa using htail)
          exact succs_inbounds hu

/-- Witness for C7 on the corridor fixture. -/
theorem positions_within_grid_witness :
    (originFerris.pos.1 ≤ 15 ∧ originFerris.pos.2 ≤ 15) ∧
    solve corridorMap originFerris (2, 0) = corridorPath ∧
    (((character_input corridorMap [] originFerris (2, 0)).1.pos.1 ≤ 15 ∧
      (character_input corridorMap [] originFerris (2, 0)).1.pos.2 ≤ 15) ∧
      ∀ st ∈ corridorPath, st.pos.1 ≤ 15 ∧ st.pos.2 ≤ 15) := by
  have hb : originFerris.pos.1 ≤ 15 ∧ originFerris.pos.2 ≤ 15 := by decide
  have hp : solve corridorMap originFerris (2, 0) = corridorPath := by decide
  exact ⟨hb, hp, positions_within_grid corridorMap [] originFerris originFerris
    (2, 0) corridorPath hb hb hp⟩

/-- C8: when no state on the goal position is reachable from the start state,
`solve` returns the empty sequence (the search exhausting the frontier is the
logged, non-fatal "no path found" case), and playing back that empty result
leaves any character state unchanged. -/
theorem unreachable_goal_empty (m : TileMap) (s : Ferris) (g : Pos)
    (h : ∀ n t, Reach m s n t → t.pos ≠ g) :
    solve m s g = [] ∧
      ∀ f : Ferris, play_solution f (solve m s g) = (f, []) := by
  have hempty : solve m s g = [] := by
    rw [solve]
    split
    · rename_i k t hfga
      have hs := solve_found_spec hfga
      exact absurd hs.1 (h k t hs.2.1)
    · rfl
  refine ⟨hempty, fun f => ?_⟩
  rw [hempty]
  rfl

/-- Witness for C8 on the sealed fixture. -/
theorem unreachable_goal_empty_witness :
    (∀ n t, Reach sealedMap originFerris n t → t.pos ≠ (3, 3)) ∧
      (solve sealedMap originFerris (3, 3) = [] ∧
        ∀ f : Ferris,
          play_solution f (solve sealedMap originFerris (3, 3)) = (f, [])) := by
  have hsucc : succs sealedMap originFerris = [] := by decide
  have hall : ∀ n t, Reach sealedMap originFerris n t → t = originFerris := by
    intro n t hr
    induction hr with
    | zero => rfl
    | succ hu hstep ih =>
      rw [ih] at hstep
      rw [hsucc] at hstep
      exact absurd hstep (List.not_mem_nil _)
  have hyp : ∀ n t, Reach sealedMap originFerris n t → t.pos ≠ (3, 3) := by
    intro n t hr
    rw [hall n t hr]
    decide
  exact ⟨hyp, unreachable_goal_empty sealedMap originFerris (3, 3) hyp⟩

/-- C9 counterexample: with two directional key events delivered in one tick
(`Up` and `Right`), the manual tick moves the character by Manhattan distance
2, not at most 1: the key loop accumulates all events before one clamped
move. -/
theorem manual_multi_key_cex :
    ¬ manhattan (character_input emptyMap [KeyCode.up, KeyCode.right]
        centerFerris (0, 0)).1.pos centerFerris.pos ≤ 1 := by decide

/-- C9 amended: the manual tick moves the character by Manhattan distance at
most the number of directional key events delivered in that tick; in
particular, with at most one directional event the move is at most one
orthogonal grid step. -/
theorem manual_move_step_bound (m : TileMap) (pressed : List KeyCode)
    (f : Ferris) (g : Pos) (hx : f.pos.1 ≤ 15) (hy : f.pos.2 ≤ 15) :
    manhattan (character_input m pressed f g).1.pos f.pos ≤
      (pressed.filter isDirectional).length := by
  have hfold' : ((inputFold m pressed f g).1 - (f.pos.1 : Int)).natAbs +
      ((inputFold m pressed f g).2.1 - (f.pos.2 : Int)).natAbs ≤
      (pressed.filter isDirectional).length :=
    foldTick_disp m f g pressed ((f.pos.1 : Int), (f.pos.2 : Int), none)
  rw [character_input_fst]
  rcases applyTileRules_pos m f (clampCoord (inputFold m pressed f g).1,
      clampCoord (inputFold m pressed f g).2.1) with h | h <;> rw [h]
  · have h1 := clampCoord_near (v := (inputFold m pressed f g).1) hx
    have h2 := clampCoord_near (v := (inputFold m pressed f g).2.1) hy
    simp only [manhattan]
    omega
  · simp [manhattan]

/-- Witness for the amended C9: a single `Up` event from the grid centre. -/
theorem manual_move_step_bound_witness :
    centerFerris.pos.1 ≤ 15 ∧ centerFerris.pos.2 ≤ 15 ∧
      manhattan (character_input emptyMap [KeyCode.up] centerFerris
          (0, 0)).1.pos centerFerris.pos ≤
        ([KeyCode.up].filter isDirectional).length :=
  ⟨by decide, by decide,
    manual_move_step_bound emptyMap [KeyCode.up] centerFerris (0, 0)
      (by decide) (by decide)⟩

/-- C10: `play_solution` pops at most one state per invocation and that state
wholly replaces the live character state; with an empty Solution queue the
character state is left completely unchanged. -/
theorem play_solution_step (f st : Ferris) (rest : List Ferris) :
    play_solution f [] = (f, []) ∧ play_solution f (st :: rest) = (st, rest) :=
  ⟨rfl, rfl⟩

example : neighbors (0, 0) = [(0, 1), (1, 0)] := by decide
example : neighbors (15, 15) = [(15, 14), (14, 15)] := by decide
example : neighbors (3, 4) = [(3, 5), (3, 3), (2, 4), (4, 4)] := by decide
example :
    succs (fun _ => none) ⟨(0, 0), ⟨false, false, false⟩⟩ =
      [⟨(0, 1), ⟨false, false, false⟩⟩, ⟨(1, 0), ⟨false, false, false⟩⟩] := by
  decide
example :
    succs (fun p => if p = (1, 0) then some 5 else none)
        ⟨(0, 0), ⟨false, false, false⟩⟩ =
      [⟨(0, 1), ⟨false, false, false⟩⟩, ⟨(1, 0), ⟨true, false, false⟩⟩] := by
  decide
example :
    succs (fun p => if p = (1, 0) then some 18 else none)
        ⟨(0, 0), ⟨false, false, false⟩⟩ =
      [⟨(0, 1), ⟨false, false, false⟩⟩] := by
  decide
